import Mathlib

/-!
Verification of the singAssist audio-analysis engine.

The Go sources are shallowly embedded: PCM bytes become `List ℕ`,
normalized samples and frequencies become exact rationals `ℚ`, the
frequency-to-note UI helpers (which genuinely use a base-2 logarithm)
are embedded over `ℝ`.  Go integer conversion (truncation toward zero)
is `goInt`, Go `math.Round` (half away from zero) is `goRoundQ` and
`goRoundR`, Go `%` and `/` on machine ints are `Int.tmod` and
`Int.tdiv`.  A slice index that would be out of range in Go (a runtime
panic) is modeled by an `Option` result of `none`.
-/

/-- Playback modes, from the audio package. -/
inductive Mode where
  | ModeSinging : Mode
  | ModeInstrumental : Mode
  | ModeFullMix : Mode
  | ModeNoAudio : Mode
deriving DecidableEq

open Mode

/-- Go conversion of a float to int: truncation toward zero. -/
def goInt (x : ℚ) : ℤ :=
  if 0 ≤ x then ⌊x⌋ else -⌊-x⌋

/-- Go math.Round on an exact rational: nearest integer, halves away from zero. -/
def goRoundQ (x : ℚ) : ℤ :=
  if 0 ≤ x then ⌊x + 1 / 2⌋ else -⌊-x + 1 / 2⌋

/-- config.SampleRate. -/
def sampleRate : ℚ := 44100

/-- Bytes per 10 ms analysis block in analyzePitch:
    int(float64(config.SampleRate)*0.01) * 4. -/
def stepBytes : ℕ := (goInt (sampleRate * (1 / 100))).toNat * 4

/-- Two little-endian bytes to a signed 16-bit value, as in
    int16(chunk[j]) | int16(chunk[j+1]) << 8. -/
def toInt16 (lo hi : ℕ) : ℤ :=
  let v : ℤ := (lo % 256 : ℕ) + 256 * ((hi % 256 : ℕ) : ℤ)
  if v < 32768 then v else v - 65536

/-- One normalized sample: float32(s16) / 32768.0 (exact in ℚ). -/
def toSample (lo hi : ℕ) : ℚ := (toInt16 lo hi : ℚ) / 32768

/-- The float buffer built from the chunk starting at byte i: the left
    channel sample of each 4-byte frame of the stepBytes-sized chunk. -/
def blockSamples (pcm : List ℕ) (i : ℕ) : List ℚ :=
  (List.range (stepBytes / 4)).map fun j =>
    toSample (pcm.getD (i + 4 * j) 0) (pcm.getD (i + 4 * j + 1) 0)

/-- CalculateEnergy: mean of squared samples. -/
def CalculateEnergy (samples : List ℚ) : ℚ :=
  (samples.map fun s => s * s).sum / samples.length

/-- The decimated autocorrelation at lag tau: sum of samples[i]*samples[i+tau]
    for i = 0, 2, 4, ... while i < n - tau. -/
def crossCorr (s : List ℚ) (tau : ℕ) : ℚ :=
  ∑ j ∈ Finset.range ((s.length - tau + 1) / 2), s.getD (2 * j) 0 * s.getD (2 * j + tau) 0

/-- The list of candidate lags searched by DetectPitch: tau runs from
    minPeriod (int(sampleRate/maxFreq), clamped below to 2) while
    tau < maxPeriod (int(sampleRate/minFreq), clamped to n-1 when ≥ n). -/
def detectLags (n : ℕ) (minFreq maxFreq : ℚ) : List ℕ :=
  let minPeriod0 := goInt (sampleRate / maxFreq)
  let maxPeriod0 := goInt (sampleRate / minFreq)
  let minPeriod := if minPeriod0 < 2 then 2 else minPeriod0
  let maxPeriod := if (n : ℤ) ≤ maxPeriod0 then (n : ℤ) - 1 else maxPeriod0
  List.range' minPeriod.toNat (maxPeriod - minPeriod).toNat

/-- One iteration of the lag-selection loop of DetectPitch: keep the lag
    whose correlation strictly exceeds the best so far. -/
def detectStep (s : List ℚ) (b : ℕ × ℚ) (tau : ℕ) : ℕ × ℚ :=
  let c := crossCorr s tau
  if b.2 < c then (tau, c) else b

/-- The lag-selection fold of DetectPitch, starting from
    bestPeriod = 0, maxVal = 0. -/
def detectBest (s : List ℚ) (lags : List ℕ) : ℕ × ℚ :=
  lags.foldl (detectStep s) (0, 0)

/-- DetectPitch: autocorrelation pitch detector. -/
def DetectPitch (s : List ℚ) (minFreq maxFreq : ℚ) : ℚ :=
  if s.length = 0 then 0
  else
    let best := detectBest s (detectLags s.length minFreq maxFreq)
    if best.1 = 0 then 0 else sampleRate / (best.1 : ℚ)

/-- The frequency bounds chosen inside DetectPitchFromMic. -/
def micFreqBounds (mode : Mode) : ℚ × ℚ :=
  if mode = ModeSinging then (85, 1100) else (40, 2000)

/-- The frequency bounds chosen inside analyzePitch. -/
def batchFreqBounds (mode : Mode) : ℚ × ℚ :=
  if mode = ModeSinging then (100, 1200) else (40, 2000)

/-- Smoother: circular buffer of recent pitch values plus write cursor. -/
structure Smoother where
  buffer : List ℚ
  cursor : ℕ
deriving DecidableEq

/-- Smoother.Smooth: on a non-positive input zero the whole buffer and
    return 0; otherwise write at the cursor, advance it modulo the buffer
    size, and return the mean of the positive entries (0 if none). -/
def Smoother.Smooth (s : Smoother) (val : ℚ) : Smoother × ℚ :=
  if val ≤ 0 then
    ({ buffer := List.replicate s.buffer.length 0, cursor := s.cursor }, 0)
  else
    let buf := s.buffer.set s.cursor val
    let nz := buf.filter fun v => decide (0 < v)
    let out := if nz.length = 0 then 0 else nz.sum / nz.length
    ({ buffer := buf, cursor := (s.cursor + 1) % buf.length }, out)

/-- Feeding the smoother a constant value n times; second component is the
    value returned by the last Smooth call (0 when n = 0). -/
def feedConst (s : Smoother) (v : ℚ) : ℕ → Smoother × ℚ
  | 0 => (s, 0)
  | n + 1 => (feedConst s v n).1.Smooth v

/-- The microphone handler state used by DetectPitchFromMic. -/
structure MicState where
  buffer : List ℚ
  threshold : ℚ
  smoother : Smoother
  pitch : ℚ

/-- DetectPitchFromMic: gate on energy, then detect with the mode-specific
    mic bounds, then smooth; publishes and returns the smoothed pitch. -/
def DetectPitchFromMic (m : MicState) (mode : Mode) : MicState × ℚ :=
  let energy := CalculateEnergy m.buffer
  if energy < m.threshold then ({ m with pitch := 0 }, 0)
  else
    let bounds := micFreqBounds mode
    let rawPitch := DetectPitch m.buffer bounds.1 bounds.2
    let res := m.smoother.Smooth rawPitch
    ({ m with smoother := res.1, pitch := res.2 }, res.2)

/-- Ascending comparison sort; same result (an ascending reordering of the
    energies) as the exchange sort in calibrateSilenceFromAudio. -/
def sortQ (l : List ℚ) : List ℚ := List.insertionSort (· ≤ ·) l

/-- The mode-dependent energy floor of calibrateSilenceFromAudio
    (0.005 for singing, 0.001 otherwise, exact). -/
def floorFor (mode : Mode) : ℚ :=
  if mode = ModeSinging then 1 / 200 else 1 / 1000

/-- The calibration sampling loop: collect block energies for
    i = 0, stepBytes, ... while i < limit and i < len(pcm) - stepBytes.
    The fuel argument only bounds the recursion; the loop guard is the
    real one, and fuel ≥ the iteration count at every call site. -/
def calibLoop (pcm : List ℕ) (limit : ℕ) : ℕ → ℕ → List ℚ
  | 0, _ => []
  | fuel + 1, i =>
    if i < limit ∧ i < pcm.length - stepBytes then
      CalculateEnergy (blockSamples pcm i) :: calibLoop pcm limit fuel (i + stepBytes)
    else []

/-- The energies sampled by calibrateSilenceFromAudio:
    sampleCount = min(500, len/stepBytes) leading blocks, further limited
    by the loop guard i < len - stepBytes. -/
def calibEnergies (pcm : List ℕ) : List ℚ :=
  calibLoop pcm (min 500 (pcm.length / stepBytes) * stepBytes) pcm.length 0

/-- calibrateSilenceFromAudio: 10th-percentile energy of up to 500 leading
    blocks times 3, with a mode-dependent floor; the floor directly when no
    block was sampled. -/
def calibrateSilenceFromAudio (pcm : List ℕ) (mode : Mode) : ℚ :=
  let energies := calibEnergies pcm
  if energies.length = 0 then floorFor mode
  else
    let sorted := sortQ energies
    let percentile10 := sorted.getD (sorted.length / 10) 0
    let threshold := percentile10 * 3
    if mode = ModeSinging ∧ threshold < 1 / 200 then 1 / 200
    else if mode ≠ ModeSinging ∧ threshold < 1 / 1000 then 1 / 1000
    else threshold

/-- The linear interpolation written into a filled gap of length k:
    entry j (0-based) is start + ((j+1)/(k+1)) * (end - start). -/
def lerpRun (startPitch endPitch : ℚ) (k : ℕ) : List ℚ :=
  (List.range k).map fun j : ℕ =>
    startPitch + (((j + 1 : ℕ) : ℚ) / ((k + 1 : ℕ) : ℚ)) * (endPitch - startPitch)

/-- The leading run of non-positive entries and the remainder of the list
    (the takeWhile / dropWhile pair of the gap scan, computed together). -/
def splitRun : List ℚ → List ℚ × List ℚ
  | [] => ([], [])
  | x :: rest =>
    if 0 < x then ([], x :: rest)
    else ((splitRun rest).1.cons x, (splitRun rest).2)

theorem splitRun_snd_length_le (l : List ℚ) : (splitRun l).2.length ≤ l.length := by
  induction l with
  | nil => simp [splitRun]
  | cons x rest ih =>
    by_cases hx : 0 < x
    · simp [splitRun, hx]
    · simp only [splitRun, if_neg hx]
      exact Nat.le_succ_of_le ih

theorem splitRun_tail_lt (x : ℚ) (rest : List ℚ)
    (h : (splitRun (x :: rest)).2 ≠ []) :
    (splitRun (x :: rest)).2.tail.length < (x :: rest).length := by
  have hle := splitRun_snd_length_le (x :: rest)
  have hpos : 0 < (splitRun (x :: rest)).2.length := List.length_pos.mpr h
  simp only [List.length_tail, List.length_cons] at *
  omega

/-- The scan of fillShortGaps after at least one element has been processed;
    prev is the element just before the remaining list (result[i-1]).  A run
    of non-positive entries is replaced by lerpRun when it is short enough,
    has the positive prev on its left and a positive entry on its right; a
    run reaching the end of the list stays as it is. -/
def fillAuxAfter (g : ℕ) (prev : ℚ) (l : List ℚ) : List ℚ :=
  match l with
  | [] => []
  | x :: rest =>
    if 0 < x then
      x :: fillAuxAfter g x rest
    else
      if hs : (splitRun (x :: rest)).2 = [] then x :: rest
      else
        (if (splitRun (x :: rest)).1.length ≤ g ∧ 0 < prev ∧
            0 < (splitRun (x :: rest)).2.head hs
         then lerpRun prev ((splitRun (x :: rest)).2.head hs) (splitRun (x :: rest)).1.length
         else (splitRun (x :: rest)).1)
          ++ (splitRun (x :: rest)).2.head hs ::
            fillAuxAfter g ((splitRun (x :: rest)).2.head hs) (splitRun (x :: rest)).2.tail
termination_by l.length
decreasing_by
  · simp
  · exact splitRun_tail_lt _ _ (by assumption)

/-- fillShortGaps: the gap at the head of the list (gapStart = 0) is never
    filled; afterwards the scan proceeds with fillAuxAfter. -/
def fillShortGaps (pitches : List ℚ) (g : ℕ) : List ℚ :=
  match pitches with
  | [] => []
  | x :: rest =>
    if 0 < x then
      x :: fillAuxAfter g x rest
    else
      if hs : (splitRun (x :: rest)).2 = [] then x :: rest
      else
        (splitRun (x :: rest)).1 ++ (splitRun (x :: rest)).2.head hs ::
          fillAuxAfter g ((splitRun (x :: rest)).2.head hs) (splitRun (x :: rest)).2.tail

/-- The per-block loop of analyzePitch: for i = 0, stepBytes, ... while
    i < len(pcm) - stepBytes, append 0 for a low-energy block, otherwise the
    detected pitch, zeroed in singing mode when outside 80..1000 Hz.
    Fuel bounds the recursion; the guard is the real one. -/
def analyzeLoop (pcm : List ℕ) (minEnergy : ℚ) (mode : Mode) : ℕ → ℕ → List ℚ
  | 0, _ => []
  | fuel + 1, i =>
    if i < pcm.length - stepBytes then
      (let chunk := blockSamples pcm i
       let energy := CalculateEnergy chunk
       if energy < minEnergy then 0
       else
         let bounds := batchFreqBounds mode
         let p := DetectPitch chunk bounds.1 bounds.2
         if mode = ModeSinging ∧ (p < 80 ∨ 1000 < p) then 0 else p)
      :: analyzeLoop pcm minEnergy mode fuel (i + stepBytes)
    else []

/-- The pitch track before the gap-fill post-pass. -/
def rawPitchTrack (pcm : List ℕ) (mode : Mode) : List ℚ :=
  analyzeLoop pcm (calibrateSilenceFromAudio pcm mode) mode pcm.length 0

/-- analyzePitch: per-block detection, then fillShortGaps with max gap 20
    for the instrumental and full-mix modes only. -/
def analyzePitch (pcm : List ℕ) (mode : Mode) : List ℚ :=
  if mode = ModeInstrumental ∨ mode = ModeFullMix then
    fillShortGaps (rawPitchTrack pcm mode) 20
  else rawPitchTrack pcm mode

/-- The scan of pruneUserPitch: number of leading entries strictly older
    than minMs (stops at the first entry with timestamp ≥ minMs). -/
def cutScan (minMs : ℚ) : List (ℚ × ℚ) → ℕ
  | [] => 0
  | e :: rest => if minMs ≤ e.1 then 0 else 1 + cutScan minMs rest

/-- pruneUserPitch with the default 30 s retention window
    (config.MaxUserPitchHistory = 30.0): entries are (timestampMs, pitch)
    pairs.  The reconstruction only happens when 0 < cut < length. -/
def pruneUserPitch (h : List (ℚ × ℚ)) (currentMs : ℤ) : List (ℚ × ℚ) :=
  if h.length = 0 then h
  else
    let minMs : ℤ := currentMs - 30000
    if minMs ≤ 0 then h
    else
      let cut := cutScan (minMs : ℚ) h
      if 0 < cut ∧ cut < h.length then h.drop cut else h

/-- The §8 pruning scenario: append (t, pitch) and prune at t for
    t = 0, 1000, ..., 40000 ms. -/
def userPitchScenario : List (ℚ × ℚ) :=
  (List.range 41).foldl
    (fun h k => pruneUserPitch (h ++ [(((1000 * k : ℕ) : ℚ), 100)]) (1000 * k)) []

/-- The 12 note names of FreqToNote. -/
def noteNames : List String :=
  ["C", "C#", "D", "D#", "E", "F"] ++ ["F#", "G", "G#", "A", "A#", "B"]

/-- Go math.Round over ℝ: nearest integer, halves away from zero. -/
noncomputable def goRoundR (x : ℝ) : ℤ :=
  if 0 ≤ x then ⌊x + 1 / 2⌋ else -⌊-x + 1 / 2⌋

/-- FreqToMidi: 69 + 12·log2(freq/440), and 0 for freq ≤ 0. -/
noncomputable def FreqToMidi (freq : ℝ) : ℝ :=
  if freq ≤ 0 then 0 else 69 + 12 * Real.logb 2 (freq / 440)

/-- FreqToNote.  Go indexes notes[midi%12] with the truncated remainder,
    which is negative for negative midi values other than multiples of 12;
    that out-of-range slice index is a runtime panic, modeled as none. -/
noncomputable def FreqToNote (freq : ℝ) : Option (String × ℤ) :=
  if freq ≤ 0 then some ("-", 0)
  else
    let midi := goRoundR (FreqToMidi freq)
    let idx := Int.tmod midi 12
    if 0 ≤ idx ∧ idx < 12 then some (noteNames.getD idx.toNat "", Int.tdiv midi 12 - 1)
    else none

/-- Modelled from the spec: the candidate lag range the claim asserts,
    in the words of §4.1 — round(sampleRate/maxFreq) to
    round(sampleRate/minFreq), clamped to [2, blockLength-1], inclusive. -/
def claimedLagRange (n : ℕ) (minFreq maxFreq : ℚ) : List ℕ :=
  let lo := max 2 (goRoundQ (sampleRate / maxFreq))
  let hi := min ((n : ℤ) - 1) (goRoundQ (sampleRate / minFreq))
  List.range' lo.toNat (hi + 1 - lo).toNat

theorem Smooth_pos_fst (s : Smoother) (v : ℚ) (hv : 0 < v) :
    (s.Smooth v).1 = { buffer := s.buffer.set s.cursor v,
                       cursor := (s.cursor + 1) % s.buffer.length } := by
  simp [Smoother.Smooth, hv.not_le]

theorem Smooth_snd_of_full (s : Smoother) (v : ℚ) (hv : 0 < v)
    (h : (s.Smooth v).1.buffer = List.replicate 5 v) : (s.Smooth v).2 = v := by
  have hset : s.buffer.set s.cursor v = List.replicate 5 v := by
    rw [Smooth_pos_fst s v hv] at h
    exact h
  simp only [Smoother.Smooth, if_neg hv.not_le, hset]
  have hfil : (List.replicate 5 v).filter (fun w => decide (0 < w)) = List.replicate 5 v :=
    List.filter_eq_self.mpr (by intro a ha; simp [List.eq_of_mem_replicate ha, hv])
  simp only [hfil, List.length_replicate, List.sum_replicate]
  norm_num

theorem feedConst_state (v : ℚ) (hv : 0 < v) :
    ∀ n, 5 ≤ n → ∀ s : Smoother, s.buffer.length = 5 → s.cursor < 5 →
      (feedConst s v n).1.buffer = List.replicate 5 v ∧ (feedConst s v n).1.cursor < 5 := by
  intro n hn
  induction n, hn using Nat.le_induction with
  | base =>
    intro s hlen hcur
    obtain ⟨buf, cur⟩ := s
    simp only at hlen hcur
    rcases hb0 : buf with _ | ⟨a0, t0⟩ <;> subst hb0 <;> simp_all
    rcases hb1 : t0 with _ | ⟨a1, t1⟩ <;> subst hb1 <;> simp_all
    rcases hb2 : t1 with _ | ⟨a2, t2⟩ <;> subst hb2 <;> simp_all
    rcases hb3 : t2 with _ | ⟨a3, t3⟩ <;> subst hb3 <;> simp_all
    rcases hb4 : t3 with _ | ⟨a4, t4⟩ <;> subst hb4 <;> simp_all
    rcases hb5 : t4 with _ | ⟨a5, t5⟩ <;> subst hb5 <;> simp_all
    interval_cases cur <;>
      simp [feedConst, Smoother.Smooth, hv.not_le, List.replicate_succ]
  | succ n hn ih =>
    intro s hlen hcur
    obtain ⟨hbuf, hc⟩ := ih s hlen hcur
    have hlen2 : (feedConst s v n).1.buffer.length = 5 := by rw [hbuf]; simp
    constructor
    · show ((feedConst s v n).1.Smooth v).1.buffer = List.replicate 5 v
      rw [Smooth_pos_fst _ v hv]
      simp only [hbuf]
      exact List.set_replicate_self
    · show ((feedConst s v n).1.Smooth v).1.cursor < 5
      rw [Smooth_pos_fst _ v hv]
      simp only [hlen2]
      omega

/-- C1 counterexample: in singing mode the live microphone pipeline does not
    use the same frequency bounds as the batch track analyzer (85–1100 Hz
    versus 100–1200 Hz). -/
theorem micFreqBounds_ne_batchFreqBounds :
    micFreqBounds ModeSinging ≠ batchFreqBounds ModeSinging := by decide

/-- C1 (amended): the batch analyzer uses 100–1200 Hz in singing mode and
    40–2000 Hz otherwise, while the live microphone pipeline uses 85–1100 Hz
    in singing mode and 40–2000 Hz otherwise; the two pipelines agree on
    every mode except singing. -/
theorem freqBounds_by_mode :
    micFreqBounds ModeSinging = (85, 1100) ∧
    batchFreqBounds ModeSinging = (100, 1200) ∧
    micFreqBounds ModeInstrumental = (40, 2000) ∧
    batchFreqBounds ModeInstrumental = (40, 2000) ∧
    micFreqBounds ModeFullMix = (40, 2000) ∧
    batchFreqBounds ModeFullMix = (40, 2000) ∧
    micFreqBounds ModeNoAudio = (40, 2000) ∧
    batchFreqBounds ModeNoAudio = (40, 2000) := by decide

/-- C8: for every smoother state and every input ≤ 0, Smooth zeroes the whole
    buffer, leaves the cursor unchanged and returns 0. -/
theorem Smooth_nonpos_resets (s : Smoother) (val : ℚ) (h : val ≤ 0) :
    s.Smooth val = ({ buffer := List.replicate s.buffer.length 0,
                      cursor := s.cursor }, 0) := by
  simp [Smoother.Smooth, h]

/-- C8 witness: Smooth 0 on a concrete dirty state clears the buffer and
    returns 0. -/
theorem Smooth_nonpos_resets_witness :
    (Smoother.mk [3, 4, 5, 0, 1] 2).Smooth 0 = (Smoother.mk [0, 0, 0, 0, 0] 2, 0) := by
  have h := Smooth_nonpos_resets (Smoother.mk [3, 4, 5, 0, 1] 2) 0 le_rfl
  simpa using h

/-- C10: feeding any smoother of window size 5 a constant positive value for
    at least 5 consecutive steps makes Smooth return exactly that value. -/
theorem Smoother_converges_to_constant (s : Smoother) (v : ℚ) (n : ℕ)
    (hlen : s.buffer.length = 5) (hcur : s.cursor < 5) (hv : 0 < v) (hn : 5 ≤ n) :
    (feedConst s v n).2 = v := by
  obtain ⟨m, rfl⟩ : ∃ m, n = m + 1 := ⟨n - 1, by omega⟩
  show ((feedConst s v m).1.Smooth v).2 = v
  refine Smooth_snd_of_full _ v hv ?_
  show (feedConst s v (m + 1)).1.buffer = List.replicate 5 v
  exact (feedConst_state v hv (m + 1) (by omega) s hlen hcur).1

/-- C10 witness: a concrete size-5 smoother fed 3 seven times returns 3. -/
theorem Smoother_converges_witness :
    (feedConst (Smoother.mk [9, 0, 2, 0, 1] 3) 3 7).2 = 3 :=
  Smoother_converges_to_constant (Smoother.mk [9, 0, 2, 0, 1] 3) 3 7 (by decide)
    (by decide) (by norm_num) (by norm_num)

theorem log_two_ne_zero : Real.log 2 ≠ 0 :=
  ne_of_gt (Real.log_pos one_lt_two)

theorem logb_two_zpow (k : ℤ) : Real.logb 2 ((2 : ℝ) ^ k) = k := by
  rw [Real.logb, Real.log_zpow, mul_div_assoc, div_self log_two_ne_zero, mul_one]

theorem freqToMidi_mul_zpow (k : ℤ) :
    FreqToMidi (440 * (2 : ℝ) ^ k) = 69 + 12 * k := by
  have hpos : (0 : ℝ) < 440 * (2 : ℝ) ^ k := by positivity
  have h440 : (440 : ℝ) * 2 ^ k / 440 = 2 ^ k :=
    mul_div_cancel_left₀ _ (by norm_num)
  rw [FreqToMidi, if_neg (not_le.mpr hpos), h440, logb_two_zpow]

theorem goRoundR_intCast (m : ℤ) : goRoundR (m : ℝ) = m := by
  have hhalf : ⌊(1 : ℝ) / 2⌋ = 0 := by
    rw [Int.floor_eq_zero_iff]
    constructor <;> norm_num
  rw [goRoundR]
  by_cases h : (0 : ℝ) ≤ (m : ℝ)
  · rw [if_pos h, Int.floor_int_add, hhalf, add_zero]
  · rw [if_neg h]
    have : -(m : ℝ) = ((-m : ℤ) : ℝ) := by push_cast; ring
    rw [this, Int.floor_int_add, hhalf, add_zero, neg_neg]

theorem goRound_freqToMidi_pow (k : ℤ) :
    goRoundR (FreqToMidi (440 * (2 : ℝ) ^ k)) = 69 + 12 * k := by
  rw [freqToMidi_mul_zpow]
  have hcast : (69 : ℝ) + 12 * (k : ℝ) = ((69 + 12 * k : ℤ) : ℝ) := by push_cast; ring
  rw [hcast, goRoundR_intCast]

/-- C9 (amended): for a non-positive frequency FreqToNote returns the no-note
    value; for a positive frequency whose rounded MIDI number is nonnegative
    it returns the note name at index midi mod 12 and octave midi/12 - 1;
    220 Hz maps to note A, octave 3.  (For a positive frequency whose rounded
    MIDI number is negative and not a multiple of 12 the slice index is
    negative and the Go code panics.) -/
theorem FreqToNote_spec :
    (∀ f : ℝ, f ≤ 0 → FreqToNote f = some ("-", 0)) ∧
    (∀ f : ℝ, 0 < f → 0 ≤ goRoundR (FreqToMidi f) →
      FreqToNote f = some (noteNames.getD ((goRoundR (FreqToMidi f)).toNat % 12) "",
        goRoundR (FreqToMidi f) / 12 - 1)) ∧
    FreqToNote 220 = some ("A", 3) := by
  refine ⟨fun f hf => by simp [FreqToNote, hf], fun f hf hm => ?_, ?_⟩
  · simp only [FreqToNote, if_neg (not_le.mpr hf)]
    rw [Int.tmod_eq_emod hm (by norm_num)]
    rw [if_pos ⟨Int.emod_nonneg _ (by norm_num), Int.emod_lt_of_pos _ (by norm_num)⟩]
    have htn : ((goRoundR (FreqToMidi f)) % 12).toNat = (goRoundR (FreqToMidi f)).toNat % 12 := by
      omega
    rw [htn, Int.tdiv_eq_ediv hm (by norm_num)]
  · have h220 : (220 : ℝ) = 440 * (2 : ℝ) ^ (-1 : ℤ) := by
      rw [zpow_neg, zpow_one]; norm_num
    have hpos : (0 : ℝ) < 440 * (2 : ℝ) ^ (-1 : ℤ) := by positivity
    have hm : goRoundR (FreqToMidi (440 * (2 : ℝ) ^ (-1 : ℤ))) = 57 := by
      rw [goRound_freqToMidi_pow]; decide
    rw [h220]
    simp only [FreqToNote, if_neg (not_le.mpr hpos), hm]
    rw [if_pos (by decide)]
    decide

/-- C9 witness: the nonnegative-midi case of FreqToNote_spec applied at
    110 Hz, which maps to note A, octave 2. -/
theorem FreqToNote_spec_witness : FreqToNote 110 = some ("A", 2) := by
  have h110 : (110 : ℝ) = 440 * (2 : ℝ) ^ (-2 : ℤ) := by
    rw [zpow_neg]; norm_num
  have h0 : goRoundR (FreqToMidi 110) = 45 := by
    rw [h110, goRound_freqToMidi_pow]; decide
  have happ := FreqToNote_spec.2.1 110 (by norm_num) (by rw [h0]; norm_num)
  rw [h0] at happ
  exact happ.trans (by decide)

/-- C9 counterexample: 440/2^6 = 6.875 Hz is a positive frequency for which
    FreqToNote yields no note value at all (its rounded MIDI number is -3,
    the Go remainder -3 % 12 = -3 is a negative slice index, a panic). -/
theorem FreqToNote_small_freq_no_result :
    ¬ ∃ s o, FreqToNote (440 * (2 : ℝ) ^ (-6 : ℤ)) = some (s, o) := by
  have hpos : (0 : ℝ) < 440 * (2 : ℝ) ^ (-6 : ℤ) := by positivity
  have h0 : goRoundR (FreqToMidi (440 * (2 : ℝ) ^ (-6 : ℤ))) = -3 := by
    rw [goRound_freqToMidi_pow]; decide
  simp only [FreqToNote, if_neg (not_le.mpr hpos), h0]
  rw [if_neg (by decide)]
  simp

/-- C7: a failing input for the no-panic contract: 440/2^7 = 3.4375 Hz is
    positive, yet FreqToNote produces no value — the rounded MIDI number is
    -15, Go computes -15 % 12 = -3 and indexing notes[-3] panics at runtime,
    modeled here as none. -/
theorem FreqToNote_panic_failing_input :
    (0 : ℝ) < 440 * (2 : ℝ) ^ (-7 : ℤ) ∧
    FreqToNote (440 * (2 : ℝ) ^ (-7 : ℤ)) = none := by
  have hpos : (0 : ℝ) < 440 * (2 : ℝ) ^ (-7 : ℤ) := by positivity
  have h0 : goRoundR (FreqToMidi (440 * (2 : ℝ) ^ (-7 : ℤ))) = -15 := by
    rw [goRound_freqToMidi_pow]; decide
  refine ⟨hpos, ?_⟩
  simp only [FreqToNote, if_neg (not_le.mpr hpos), h0]
  rw [if_neg (by decide)]

theorem mem_range'_iff (m s n : ℕ) : m ∈ List.range' s n ↔ s ≤ m ∧ m < s + n := by
  rw [List.mem_range']
  constructor
  · rintro ⟨i, hi, rfl⟩; omega
  · rintro ⟨h1, h2⟩; exact ⟨m - s, by omega, by omega⟩

theorem detectFold_spec (s : List ℚ) :
    ∀ (lags : List ℕ) (acc : ℕ × ℚ),
      (List.foldl (detectStep s) acc lags = acc ∨
        ((List.foldl (detectStep s) acc lags).1 ∈ lags ∧
         (List.foldl (detectStep s) acc lags).2 =
           crossCorr s (List.foldl (detectStep s) acc lags).1 ∧
         acc.2 < (List.foldl (detectStep s) acc lags).2)) ∧
      acc.2 ≤ (List.foldl (detectStep s) acc lags).2 ∧
      ∀ tau ∈ lags, crossCorr s tau ≤ (List.foldl (detectStep s) acc lags).2 := by
  intro lags
  induction lags with
  | nil => intro acc; exact ⟨Or.inl rfl, le_rfl, by simp⟩
  | cons t0 rest ih =>
    intro acc
    simp only [List.foldl_cons]
    obtain ⟨hmain, hle, hall⟩ := ih (detectStep s acc t0)
    have hstep1 : acc.2 ≤ (detectStep s acc t0).2 := by
      unfold detectStep
      dsimp only
      split_ifs with hc
      · exact le_of_lt hc
      · exact le_rfl
    have hstep2 : crossCorr s t0 ≤ (detectStep s acc t0).2 := by
      unfold detectStep
      dsimp only
      split_ifs with hc
      · exact le_rfl
      · exact not_lt.mp hc
    have hstep3 : detectStep s acc t0 = acc ∨
        ((detectStep s acc t0).1 = t0 ∧ (detectStep s acc t0).2 = crossCorr s t0 ∧
         acc.2 < (detectStep s acc t0).2) := by
      unfold detectStep
      dsimp only
      split_ifs with hc
      · exact Or.inr ⟨rfl, rfl, hc⟩
      · exact Or.inl rfl
    refine ⟨?_, le_trans hstep1 hle, ?_⟩
    · rcases hmain with heq | ⟨hmem, hval, hlt⟩
      · rw [heq]
        rcases hstep3 with h1 | ⟨h1, h2, h3⟩
        · exact Or.inl h1
        · exact Or.inr ⟨by rw [h1]; exact List.mem_cons_self t0 rest, by rw [h1, h2], h3⟩
      · exact Or.inr ⟨List.mem_cons_of_mem _ hmem, hval, lt_of_le_of_lt hstep1 hlt⟩
    · intro tau htau
      rcases List.mem_cons.mp htau with rfl | hmem
      · exact le_trans hstep2 hle
      · exact hall tau hmem

theorem goInt_44100_div_2000 : goInt (sampleRate / 2000) = 22 := by
  rw [goInt, if_pos (by norm_num [sampleRate])]
  norm_num [sampleRate]

theorem goInt_44100_div_40 : goInt (sampleRate / 40) = 1102 := by
  rw [goInt, if_pos (by norm_num [sampleRate])]
  norm_num [sampleRate]

theorem goRoundQ_44100_div_2000 : goRoundQ (sampleRate / 2000) = 22 := by
  rw [goRoundQ, if_pos (by norm_num [sampleRate])]
  norm_num [sampleRate]

theorem goRoundQ_44100_div_40 : goRoundQ (sampleRate / 40) = 1103 := by
  rw [goRoundQ, if_pos (by norm_num [sampleRate])]
  norm_num [sampleRate]

theorem goInt_44100_div_22050 : goInt (sampleRate / 22050) = 2 := by
  rw [goInt, if_pos (by norm_num [sampleRate])]
  norm_num [sampleRate]

theorem goInt_44100_div_11025 : goInt (sampleRate / 11025) = 4 := by
  rw [goInt, if_pos (by norm_num [sampleRate])]
  norm_num [sampleRate]

theorem detectLags_example : detectLags 8 11025 22050 = [2, 3] := by
  simp only [detectLags, goInt_44100_div_22050, goInt_44100_div_11025]
  norm_num
  decide

theorem crossCorr_example_2 : crossCorr [1, 0, 1, 0, 1, 0, 1, 0] 2 = 3 := by
  simp [crossCorr, Finset.sum_range_succ, List.getD]
  norm_num

theorem crossCorr_example_3 : crossCorr [1, 0, 1, 0, 1, 0, 1, 0] 3 = 0 := by
  simp [crossCorr, Finset.sum_range_succ, List.getD]

/-- C5 (amended): the candidate lag range of DetectPitch is the half-open
    interval from int(sampleRate/maxFreq) (truncated, clamped below to 2) up
    to but excluding int(sampleRate/minFreq) (truncated, clamped above to
    blockLength-1); every lag in it is searched, and when the result is
    nonzero the retained lag is a searched lag with positive decimated
    autocorrelation that is maximal among all searched lags, the result
    being sampleRate divided by that lag. -/
theorem DetectPitch_spec :
    (∀ (n : ℕ) (minFreq maxFreq : ℚ) (tau : ℕ),
      tau ∈ detectLags n minFreq maxFreq ↔
        2 ≤ (tau : ℤ) ∧ goInt (sampleRate / maxFreq) ≤ (tau : ℤ) ∧
        (tau : ℤ) < goInt (sampleRate / minFreq) ∧ (tau : ℤ) < (n : ℤ) - 1) ∧
    (∀ (s : List ℚ) (minFreq maxFreq : ℚ),
      DetectPitch s minFreq maxFreq = 0 ∨
      ∃ tau ∈ detectLags s.length minFreq maxFreq,
        0 < crossCorr s tau ∧
        (∀ tau2 ∈ detectLags s.length minFreq maxFreq, crossCorr s tau2 ≤ crossCorr s tau) ∧
        DetectPitch s minFreq maxFreq = sampleRate / (tau : ℚ)) ∧
    DetectPitch [1, 0, 1, 0, 1, 0, 1, 0] 11025 22050 = 22050 := by
  refine ⟨?_, ?_, ?_⟩
  · intro n minFreq maxFreq tau
    simp only [detectLags]
    rw [mem_range'_iff]
    generalize goInt (sampleRate / maxFreq) = a
    generalize goInt (sampleRate / minFreq) = b
    split_ifs <;> omega
  · intro s minFreq maxFreq
    by_cases hn : s.length = 0
    · exact Or.inl (by simp [DetectPitch, hn])
    · obtain ⟨hmain, -, hall⟩ :=
        detectFold_spec s (detectLags s.length minFreq maxFreq) (0, 0)
      by_cases hb : (detectBest s (detectLags s.length minFreq maxFreq)).1 = 0
      · exact Or.inl (by simp [DetectPitch, hn, hb])
      · right
        have hne : List.foldl (detectStep s) (0, 0)
            (detectLags s.length minFreq maxFreq) ≠ ((0 : ℕ), (0 : ℚ)) := by
          intro hcontra
          exact hb (by rw [detectBest, hcontra])
        rcases hmain with heq | ⟨hmem, hval, hpos⟩
        · exact absurd heq hne
        · refine ⟨(detectBest s (detectLags s.length minFreq maxFreq)).1,
            hmem, ?_, ?_, ?_⟩
          · rw [detectBest, ← hval]; exact hpos
          · intro tau2 h2; rw [detectBest, ← hval]; exact hall tau2 h2
          · simp [DetectPitch, hn, hb]
  · have hbest : detectBest [1, 0, 1, 0, 1, 0, 1, 0] [2, 3] = (2, 3) := by
      simp only [detectBest, List.foldl_cons, List.foldl_nil, detectStep,
        crossCorr_example_2, crossCorr_example_3]
      norm_num
    have hlen : ([1, 0, 1, 0, 1, 0, 1, 0] : List ℚ).length = 8 := by simp
    rw [DetectPitch, if_neg (by simp), hlen, detectLags_example, hbest]
    norm_num [sampleRate]

/-- C5 witness: the concrete-block conjunct of DetectPitch_spec — an
    alternating block of eight samples detects lag 2, i.e. 22050 Hz. -/
theorem DetectPitch_spec_witness :
    DetectPitch [1, 0, 1, 0, 1, 0, 1, 0] 11025 22050 = 22050 :=
  DetectPitch_spec.2.2

/-- C5 counterexample: with a 2048-sample block and bounds 40–2000 Hz, lag
    1102 lies in the range the claim describes (rounded endpoints, inclusive
    upper bound) but DetectPitch never searches it: the code truncates
    44100/40 = 1102.5 to 1102 and the loop stops before reaching the upper
    bound of its own range. -/
theorem detectLags_missing_claimed_lag :
    1102 ∈ claimedLagRange 2048 40 2000 ∧ 1102 ∉ detectLags 2048 40 2000 := by
  constructor
  · simp only [claimedLagRange, goRoundQ_44100_div_2000, goRoundQ_44100_div_40]
    rw [mem_range'_iff]
    decide
  · simp only [detectLags, goInt_44100_div_2000, goInt_44100_div_40]
    rw [mem_range'_iff]
    decide

theorem stepBytes_eq : stepBytes = 1764 := by
  rw [stepBytes, goInt, if_pos (by norm_num [sampleRate])]
  have h441 : ⌊sampleRate * (1 / 100)⌋ = 441 := by norm_num [sampleRate]
  rw [h441]
  decide

theorem analyzeLoop_length (pcm : List ℕ) (minE : ℚ) (mode : Mode) :
    ∀ (fuel i : ℕ), pcm.length - stepBytes - i ≤ fuel →
      (analyzeLoop pcm minE mode fuel i).length =
        (pcm.length - stepBytes - i + (stepBytes - 1)) / stepBytes := by
  intro fuel
  induction fuel with
  | zero =>
    intro i h
    have h0 : analyzeLoop pcm minE mode 0 i = [] := rfl
    rw [h0, List.length_nil]
    rw [stepBytes_eq] at *
    omega
  | succ fuel ih =>
    intro i h
    by_cases hc : i < pcm.length - stepBytes
    · have h1 : analyzeLoop pcm minE mode (fuel + 1) i =
          (let chunk := blockSamples pcm i
           let energy := CalculateEnergy chunk
           if energy < minE then 0
           else
             let bounds := batchFreqBounds mode
             let p := DetectPitch chunk bounds.1 bounds.2
             if mode = ModeSinging ∧ (p < 80 ∨ 1000 < p) then 0 else p)
          :: analyzeLoop pcm minE mode fuel (i + stepBytes) := by
        show (if i < pcm.length - stepBytes then _ else []) = _
        rw [if_pos hc]
      rw [h1, List.length_cons]
      rw [ih (i + stepBytes) (by rw [stepBytes_eq] at *; omega)]
      rw [stepBytes_eq] at *
      omega
    · have h1 : analyzeLoop pcm minE mode (fuel + 1) i = [] := by
        show (if i < pcm.length - stepBytes then _ else []) = _
        rw [if_neg hc]
      rw [h1, List.length_nil]
      rw [stepBytes_eq] at *
      omega

theorem calibLoop_length (pcm : List ℕ) (limit : ℕ) :
    ∀ (fuel i : ℕ), pcm.length - stepBytes - i ≤ fuel →
      (calibLoop pcm limit fuel i).length =
        min ((limit - i + (stepBytes - 1)) / stepBytes)
          ((pcm.length - stepBytes - i + (stepBytes - 1)) / stepBytes) := by
  intro fuel
  induction fuel with
  | zero =>
    intro i h
    have h0 : calibLoop pcm limit 0 i = [] := rfl
    rw [h0, List.length_nil]
    rw [stepBytes_eq] at *
    omega
  | succ fuel ih =>
    intro i h
    by_cases hc : i < limit ∧ i < pcm.length - stepBytes
    · have h1 : calibLoop pcm limit (fuel + 1) i =
          CalculateEnergy (blockSamples pcm i) :: calibLoop pcm limit fuel (i + stepBytes) := by
        show (if i < limit ∧ i < pcm.length - stepBytes then _ else []) = _
        rw [if_pos hc]
      rw [h1, List.length_cons]
      rw [ih (i + stepBytes) (by rw [stepBytes_eq] at *; omega)]
      rw [stepBytes_eq] at *
      omega
    · have h1 : calibLoop pcm limit (fuel + 1) i = [] := by
        show (if i < limit ∧ i < pcm.length - stepBytes then _ else []) = _
        rw [if_neg hc]
      rw [h1, List.length_nil]
      rw [stepBytes_eq] at *
      omega

theorem calibEnergies_length (pcm : List ℕ) :
    (calibEnergies pcm).length = min 500 ((pcm.length - 1) / stepBytes) := by
  rw [calibEnergies, calibLoop_length pcm _ pcm.length 0 (by omega)]
  rw [stepBytes_eq]
  omega

theorem lerpRun_length (p q : ℚ) (k : ℕ) : (lerpRun p q k).length = k := by
  rw [lerpRun, List.length_map, List.length_range]

theorem splitRun_length_add (l : List ℚ) :
    (splitRun l).1.length + (splitRun l).2.length = l.length := by
  induction l with
  | nil => simp [splitRun]
  | cons x rest ih =>
    by_cases hx : 0 < x
    · simp [splitRun, hx]
    · simp only [splitRun, if_neg hx, List.length_cons, List.cons.injEq]
      omega

theorem fillAuxAfter_nil (g : ℕ) (prev : ℚ) : fillAuxAfter g prev [] = [] := by
  rw [fillAuxAfter]

theorem fillAuxAfter_length :
    ∀ (n : ℕ) (l : List ℚ), l.length ≤ n → ∀ (g : ℕ) (prev : ℚ),
      (fillAuxAfter g prev l).length = l.length := by
  intro n
  induction n with
  | zero =>
    intro l hl g prev
    obtain rfl : l = [] := List.length_eq_zero.mp (Nat.le_zero.mp hl)
    rw [fillAuxAfter_nil]
  | succ n ih =>
    intro l hl g prev
    cases l with
    | nil => rw [fillAuxAfter_nil]
    | cons x rest =>
      rw [fillAuxAfter]
      by_cases hx : 0 < x
      · rw [if_pos hx]
        simp only [List.length_cons]
        rw [ih rest (by simp only [List.length_cons] at hl; omega) g x]
      · rw [if_neg hx]
        by_cases hs : (splitRun (x :: rest)).2 = []
        · rw [dif_pos hs]
        · rw [dif_neg hs]
          have htail : (splitRun (x :: rest)).2.tail.length ≤ n := by
            have := splitRun_tail_lt x rest hs
            simp only [List.length_cons] at this hl ⊢
            omega
          have hadd := splitRun_length_add (x :: rest)
          have hpos : 0 < (splitRun (x :: rest)).2.length := List.length_pos.mpr hs
          have htl : (splitRun (x :: rest)).2.tail.length =
              (splitRun (x :: rest)).2.length - 1 := by simp [List.length_tail]
          simp only [List.length_append, List.length_cons]
          rw [ih _ htail g _]
          split_ifs with hcond
          · rw [lerpRun_length]
            simp only [List.length_cons] at hadd ⊢
            omega
          · simp only [List.length_cons] at hadd ⊢
            omega

theorem fillShortGaps_length (l : List ℚ) (g : ℕ) :
    (fillShortGaps l g).length = l.length := by
  cases l with
  | nil => rfl
  | cons x rest =>
    rw [fillShortGaps]
    by_cases hx : 0 < x
    · rw [if_pos hx]
      simp only [List.length_cons]
      rw [fillAuxAfter_length rest.length rest le_rfl g x]
    · rw [if_neg hx]
      by_cases hs : (splitRun (x :: rest)).2 = []
      · rw [dif_pos hs]
      · rw [dif_neg hs]
        have hadd := splitRun_length_add (x :: rest)
        have hpos : 0 < (splitRun (x :: rest)).2.length := List.length_pos.mpr hs
        have htl : (splitRun (x :: rest)).2.tail.length =
            (splitRun (x :: rest)).2.length - 1 := by simp [List.length_tail]
        simp only [List.length_append, List.length_cons]
        rw [fillAuxAfter_length (splitRun (x :: rest)).2.tail.length _ le_rfl g _]
        simp only [List.length_cons] at hadd ⊢
        omega

/-- C2 (amended): each block holds round(sampleRate·0.01) = 441 samples
    (stepBytes = 441·4 bytes), the loop appends exactly one entry per block
    it visits, but it stops at len − stepBytes, so the final whole block of
    the buffer is never analyzed: the track length is ⌊(len−1)/stepBytes⌋,
    which is one less than the number of whole 10 ms blocks exactly when the
    buffer length is a positive multiple of the block size. -/
theorem analyzePitch_length_spec :
    stepBytes = 441 * 4 ∧
    ∀ (pcm : List ℕ) (mode : Mode),
      (analyzePitch pcm mode).length = (pcm.length - 1) / stepBytes := by
  refine ⟨by rw [stepBytes_eq], ?_⟩
  intro pcm mode
  have hlen : (rawPitchTrack pcm mode).length = (pcm.length - 1) / stepBytes := by
    rw [rawPitchTrack, analyzeLoop_length pcm _ mode pcm.length 0 (by omega)]
    rw [stepBytes_eq]
    omega
  rw [analyzePitch]
  split_ifs with hm
  · rw [fillShortGaps_length, hlen]
  · exact hlen

/-- C2 counterexample: a PCM buffer of exactly 1764 bytes contains exactly
    one whole 10 ms block, yet analyzePitch produces an empty track — the
    loop guard i < len − stepBytes skips the final (here the only) block. -/
theorem analyzePitch_drops_final_block :
    (analyzePitch (List.replicate 1764 0) ModeFullMix).length = 0 ∧
    (List.replicate 1764 (0 : ℕ)).length / stepBytes = 1 := by
  constructor
  · rw [analyzePitch, if_pos (Or.inr rfl), fillShortGaps_length, rawPitchTrack,
      analyzeLoop_length _ _ _ _ 0 (by omega), List.length_replicate, stepBytes_eq]
  · rw [List.length_replicate, stepBytes_eq]

theorem calibrateSilence_eq (pcm : List ℕ) (mode : Mode) :
    calibrateSilenceFromAudio pcm mode =
      if (calibEnergies pcm).length = 0 then floorFor mode
      else
        if mode = ModeSinging ∧
            (sortQ (calibEnergies pcm)).getD ((sortQ (calibEnergies pcm)).length / 10) 0 * 3 <
              1 / 200
          then 1 / 200
        else if mode ≠ ModeSinging ∧
            (sortQ (calibEnergies pcm)).getD ((sortQ (calibEnergies pcm)).length / 10) 0 * 3 <
              1 / 1000
          then 1 / 1000
        else (sortQ (calibEnergies pcm)).getD ((sortQ (calibEnergies pcm)).length / 10) 0 * 3 :=
  rfl

theorem floorFor_pos (mode : Mode) : 0 < floorFor mode := by
  rw [floorFor]
  split_ifs <;> norm_num

theorem calibrateSilence_eq_max (pcm : List ℕ) (mode : Mode) :
    calibrateSilenceFromAudio pcm mode =
      max ((sortQ (calibEnergies pcm)).getD ((sortQ (calibEnergies pcm)).length / 10) 0 * 3)
        (floorFor mode) := by
  rw [calibrateSilence_eq]
  by_cases h0 : (calibEnergies pcm).length = 0
  · rw [if_pos h0]
    have he : calibEnergies pcm = [] := List.length_eq_zero.mp h0
    have hs : sortQ (calibEnergies pcm) = [] := by rw [he]; rfl
    rw [hs]
    have hz : (([] : List ℚ).getD (([] : List ℚ).length / 10) 0) = 0 := by simp
    rw [hz, zero_mul, max_eq_right (le_of_lt (floorFor_pos mode))]
  · rw [if_neg h0]
    by_cases hm : mode = ModeSinging
    · have hf : floorFor mode = 1 / 200 := by rw [floorFor, if_pos hm]
      by_cases hlt : (sortQ (calibEnergies pcm)).getD
          ((sortQ (calibEnergies pcm)).length / 10) 0 * 3 < 1 / 200
      · rw [if_pos ⟨hm, hlt⟩, hf, max_eq_right (le_of_lt hlt)]
      · rw [if_neg (fun hand => hlt hand.2), if_neg (fun hand => hand.1 hm), hf,
          max_eq_left (not_lt.mp hlt)]
    · have hf : floorFor mode = 1 / 1000 := by rw [floorFor, if_neg hm]
      by_cases hlt : (sortQ (calibEnergies pcm)).getD
          ((sortQ (calibEnergies pcm)).length / 10) 0 * 3 < 1 / 1000
      · rw [if_neg (fun hand => hm hand.1), if_pos ⟨hm, hlt⟩, hf,
          max_eq_right (le_of_lt hlt)]
      · rw [if_neg (fun hand => hm hand.1), if_neg (fun hand => hlt hand.2), hf,
          max_eq_left (not_lt.mp hlt)]

/-- C6: batch calibration sorts the energies of up to 500 leading blocks in
    ascending order, takes the entry at index len/10, multiplies by 3 and
    applies the mode-dependent floor (1/200 singing, 1/1000 otherwise) — the
    whole computation equals max(3·percentile10, floor); with fewer than one
    full analysis block no energies are sampled and the floor is returned
    directly; the result is always positive. -/
theorem calibrateSilence_spec :
    (∀ (pcm : List ℕ) (mode : Mode), pcm.length < stepBytes →
      calibrateSilenceFromAudio pcm mode = floorFor mode) ∧
    (∀ (pcm : List ℕ) (mode : Mode),
      calibrateSilenceFromAudio pcm mode =
        max ((sortQ (calibEnergies pcm)).getD ((sortQ (calibEnergies pcm)).length / 10) 0 * 3)
          (floorFor mode)) ∧
    (∀ pcm : List ℕ, (calibEnergies pcm).length = min 500 ((pcm.length - 1) / stepBytes)) ∧
    (∀ (pcm : List ℕ) (mode : Mode), 0 < calibrateSilenceFromAudio pcm mode) ∧
    (∀ l : List ℚ, List.Sorted (· ≤ ·) (sortQ l) ∧ (sortQ l).Perm l) := by
  refine ⟨?_, calibrateSilence_eq_max, calibEnergies_length, ?_, ?_⟩
  · intro pcm mode hshort
    have h0 : (calibEnergies pcm).length = 0 := by
      rw [calibEnergies_length]
      rw [stepBytes_eq] at *
      omega
    rw [calibrateSilence_eq, if_pos h0]
  · intro pcm mode
    rw [calibrateSilence_eq_max]
    exact lt_max_of_lt_right (floorFor_pos mode)
  · intro l
    exact ⟨List.sorted_insertionSort (· ≤ ·) l, List.perm_insertionSort (· ≤ ·) l⟩

/-- C6 witness: the short-input case applied to the empty buffer in singing
    mode yields the singing floor 1/200 = 0.005. -/
theorem calibrateSilence_spec_witness :
    calibrateSilenceFromAudio [] ModeSinging = 1 / 200 := by
  have h := calibrateSilence_spec.1 [] ModeSinging (by rw [stepBytes_eq]; simp)
  rw [h, floorFor, if_pos rfl]

theorem pruneUserPitch_eq (h : List (ℚ × ℚ)) (cur : ℤ) :
    pruneUserPitch h cur =
      if h.length = 0 then h
      else if cur - 30000 ≤ 0 then h
      else if 0 < cutScan ((cur - 30000 : ℤ) : ℚ) h ∧
          cutScan ((cur - 30000 : ℤ) : ℚ) h < h.length
        then h.drop (cutScan ((cur - 30000 : ℤ) : ℚ) h)
        else h := rfl

theorem prune_drop_filter (m : ℚ) :
    ∀ h : List (ℚ × ℚ), List.Pairwise (fun a b => a.1 ≤ b.1) h → (∃ e ∈ h, m ≤ e.1) →
      h.drop (cutScan m h) = h.filter (fun e => decide (m ≤ e.1)) ∧ cutScan m h < h.length := by
  intro h
  induction h with
  | nil => intro _ hex; simp at hex
  | cons e rest ih =>
    intro hpw hex
    obtain ⟨hhead, hpw2⟩ := List.pairwise_cons.mp hpw
    by_cases hm : m ≤ e.1
    · have hcut : cutScan m (e :: rest) = 0 := by
        show (if m ≤ e.1 then 0 else 1 + cutScan m rest) = 0
        rw [if_pos hm]
      refine ⟨?_, by rw [hcut]; simp⟩
      rw [hcut, List.drop_zero]
      symm
      apply List.filter_eq_self.mpr
      intro a ha
      rcases List.mem_cons.mp ha with rfl | hb
      · exact decide_eq_true hm
      · exact decide_eq_true (le_trans hm (hhead a hb))
    · have hcut : cutScan m (e :: rest) = 1 + cutScan m rest := by
        show (if m ≤ e.1 then 0 else 1 + cutScan m rest) = _
        rw [if_neg hm]
      have hex2 : ∃ b ∈ rest, m ≤ b.1 := by
        obtain ⟨b, hb, hmb⟩ := hex
        rcases List.mem_cons.mp hb with rfl | hb2
        · exact absurd hmb hm
        · exact ⟨b, hb2, hmb⟩
      obtain ⟨hdrop, hlt⟩ := ih hpw2 hex2
      constructor
      · rw [hcut, Nat.add_comm, List.drop_succ_cons, hdrop, List.filter_cons,
          if_neg (by simpa using hm)]
      · rw [hcut]
        simp only [List.length_cons]
        omega

/-- C4 (amended): prune is a no-op when currentMs − 30000 ≤ 0; when the
    history is time-ordered and at least one entry survives the cutoff,
    prune removes exactly the entries whose timestamp is below
    currentMs − 30000, keeping the rest in order (when every entry is below
    the cutoff the guard cut < length fails and the history is left
    unchanged); the 0,1000,...,40000 ms append-and-prune scenario leaves
    exactly the 31 entries with timestamps 10000..40000, a non-empty
    history. -/
theorem pruneUserPitch_spec :
    (∀ (h : List (ℚ × ℚ)) (cur : ℤ), cur - 30000 ≤ 0 → pruneUserPitch h cur = h) ∧
    (∀ (h : List (ℚ × ℚ)) (cur : ℤ),
      List.Pairwise (fun a b => a.1 ≤ b.1) h → 0 < cur - 30000 →
      (∃ e ∈ h, ((cur - 30000 : ℤ) : ℚ) ≤ e.1) →
      pruneUserPitch h cur = h.filter fun e => decide (((cur - 30000 : ℤ) : ℚ) ≤ e.1)) ∧
    userPitchScenario =
      ((List.range 31).map fun k : ℕ => (((10000 + 1000 * k : ℕ) : ℚ), 100)) ∧
    userPitchScenario ≠ [] := by
  have hscen : userPitchScenario =
      ((List.range 31).map fun k : ℕ => (((10000 + 1000 * k : ℕ) : ℚ), 100)) := by
    rw [userPitchScenario]
    norm_num [List.range_succ, pruneUserPitch, cutScan]
  refine ⟨?_, ?_, hscen, ?_⟩
  · intro h cur hle
    rw [pruneUserPitch_eq]
    split_ifs <;> rfl
  · intro h cur hpw hpos hex
    rw [pruneUserPitch_eq]
    have h0 : h.length ≠ 0 := by
      obtain ⟨e, he, -⟩ := hex
      exact fun hh => (List.ne_nil_of_mem he) (List.length_eq_zero.mp hh)
    rw [if_neg h0, if_neg (by omega)]
    obtain ⟨hdrop, hlt⟩ := prune_drop_filter ((cur - 30000 : ℤ) : ℚ) h hpw hex
    by_cases hcz : cutScan ((cur - 30000 : ℤ) : ℚ) h = 0
    · rw [if_neg (by rw [hcz]; exact fun hand => absurd hand.1 (lt_irrefl 0)), ← hdrop,
        hcz, List.drop_zero]
    · rw [if_pos ⟨Nat.pos_of_ne_zero hcz, hlt⟩, hdrop]
  · rw [hscen]
    intro hnil
    have hlen := congrArg List.length hnil
    simp at hlen

/-- C4 witness: the exact-removal case applied to a concrete two-entry
    sorted history pruned at 40 s keeps only the entry at 15 s. -/
theorem pruneUserPitch_spec_witness :
    pruneUserPitch [((0 : ℚ), 1), ((15000 : ℚ), 2)] 40000 = [((15000 : ℚ), 2)] := by
  have h := pruneUserPitch_spec.2.1 [((0 : ℚ), 1), ((15000 : ℚ), 2)] 40000
    (by norm_num [List.pairwise_cons]) (by norm_num)
    ⟨((15000 : ℚ), 2), by norm_num, by norm_num⟩
  rw [h]
  norm_num [List.filter_cons]

/-- C4 counterexample: a single entry with timestamp 0, pruned at 40000 ms,
    survives even though its timestamp is below the 10000 ms cutoff — when
    every entry is stale the guard cut < length fails and nothing is
    removed. -/
theorem pruneUserPitch_keeps_stale_entry :
    pruneUserPitch [((0 : ℚ), 100)] 40000 = [((0 : ℚ), 100)] ∧
    (0 : ℚ) < ((40000 - 30000 : ℤ) : ℚ) := by
  constructor
  · rw [pruneUserPitch_eq]
    norm_num [cutScan]
  · norm_num

theorem splitRun_replicate (k : ℕ) :
    splitRun (List.replicate k (0 : ℚ)) = (List.replicate k 0, []) := by
  induction k with
  | zero => rfl
  | succ k ih =>
    rw [List.replicate_succ]
    simp only [splitRun, if_neg (lt_irrefl 0), ih]
    rw [← List.replicate_succ]
    rfl

theorem splitRun_replicate_append (k : ℕ) (q : ℚ) (hq : 0 < q) (rest : List ℚ) :
    splitRun (List.replicate k 0 ++ q :: rest) = (List.replicate k 0, q :: rest) := by
  induction k with
  | zero => simp [splitRun, hq]
  | succ k ih =>
    rw [List.replicate_succ, List.cons_append]
    simp only [splitRun, if_neg (lt_irrefl 0), ih]
    rw [← List.replicate_succ]
    rfl

theorem fillAuxAfter_pos (g : ℕ) (prev x : ℚ) (hx : 0 < x) (rest : List ℚ) :
    fillAuxAfter g prev (x :: rest) = x :: fillAuxAfter g x rest := by
  rw [fillAuxAfter, if_pos hx]

theorem fillAuxAfter_gap (g : ℕ) (prev : ℚ) (k : ℕ) (q : ℚ) (rest : List ℚ)
    (hprev : 0 < prev) (hq : 0 < q) :
    fillAuxAfter g prev (List.replicate k 0 ++ q :: rest) =
      (if k ≤ g then lerpRun prev q k else List.replicate k 0) ++
        q :: fillAuxAfter g q rest := by
  cases k with
  | zero =>
    rw [if_pos (Nat.zero_le g)]
    have hlz : lerpRun prev q 0 = [] := by simp [lerpRun]
    rw [hlz]
    simp only [List.replicate_zero, List.nil_append]
    exact fillAuxAfter_pos g prev q hq rest
  | succ k =>
    rw [List.replicate_succ, List.cons_append, fillAuxAfter, if_neg (lt_irrefl 0)]
    have hsp : splitRun (0 :: (List.replicate k 0 ++ q :: rest)) =
        (List.replicate (k + 1) 0, q :: rest) := by
      have h := splitRun_replicate_append (k + 1) q hq rest
      rwa [List.replicate_succ, List.cons_append] at h
    simp only [hsp]
    rw [dif_neg (List.cons_ne_nil q rest)]
    simp only [List.head_cons, List.tail_cons, List.length_replicate]
    by_cases hk : k + 1 ≤ g
    · rw [if_pos ⟨hk, hprev, hq⟩, if_pos hk]
    · rw [if_neg (fun hand => hk hand.1), if_neg hk, List.replicate_succ]

theorem fillAuxAfter_trailing (g : ℕ) (prev : ℚ) (k : ℕ) :
    fillAuxAfter g prev (List.replicate k (0 : ℚ)) = List.replicate k 0 := by
  cases k with
  | zero => exact fillAuxAfter_nil g prev
  | succ k =>
    rw [List.replicate_succ, fillAuxAfter, if_neg (lt_irrefl 0)]
    have hsp : splitRun (0 :: List.replicate k (0 : ℚ)) = (List.replicate (k + 1) 0, []) := by
      have h := splitRun_replicate (k + 1)
      rwa [List.replicate_succ] at h
    simp only [hsp]
    rw [dif_pos trivial]

theorem fillShortGaps_pos (x : ℚ) (hx : 0 < x) (rest : List ℚ) (g : ℕ) :
    fillShortGaps (x :: rest) g = x :: fillAuxAfter g x rest := by
  simp only [fillShortGaps]
  rw [if_pos hx]

/-- C3: gap-fill on a track of nonnegative entries — a maximal run of k zeros
    strictly between a positive value p and a positive value q is replaced by
    the k linearly interpolated values between p and q when k is at most the
    configured maximum, and left as zeros when longer; runs touching the
    start or the end of the track are always left as zeros; the two spec
    examples with max gap 3 evaluate as stated. -/
theorem fillShortGaps_spec :
    (∀ (g k : ℕ) (q : ℚ) (rest : List ℚ), 0 < q →
      fillShortGaps (List.replicate k 0 ++ q :: rest) g =
        List.replicate k 0 ++ fillShortGaps (q :: rest) g) ∧
    (∀ g k : ℕ, fillShortGaps (List.replicate k (0 : ℚ)) g = List.replicate k 0) ∧
    (∀ (g : ℕ) (p : ℚ) (k : ℕ) (q : ℚ) (rest : List ℚ), 0 < p → 0 < q → k ≤ g →
      fillShortGaps (p :: (List.replicate k 0 ++ q :: rest)) g =
        p :: (lerpRun p q k ++ fillShortGaps (q :: rest) g)) ∧
    (∀ (g : ℕ) (p : ℚ) (k : ℕ) (q : ℚ) (rest : List ℚ), 0 < p → 0 < q → g < k →
      fillShortGaps (p :: (List.replicate k 0 ++ q :: rest)) g =
        p :: (List.replicate k 0 ++ fillShortGaps (q :: rest) g)) ∧
    (∀ (g : ℕ) (p : ℚ) (k : ℕ), 0 < p →
      fillShortGaps (p :: List.replicate k 0) g = p :: List.replicate k 0) ∧
    fillShortGaps [5, 5, 0, 0, 0, 8, 8] 3 = [5, 5, 23 / 4, 13 / 2, 29 / 4, 8, 8] ∧
    fillShortGaps [5, 5, 0, 0, 0, 0, 0, 8, 8] 3 = [5, 5, 0, 0, 0, 0, 0, 8, 8] := by
  refine ⟨?_, ?_, ?_, ?_, ?_, ?_, ?_⟩
  · intro g k q rest hq
    cases k with
    | zero => simp
    | succ k =>
      rw [List.replicate_succ, List.cons_append]
      simp only [fillShortGaps]
      rw [if_neg (lt_irrefl 0)]
      have hsp : splitRun (0 :: (List.replicate k 0 ++ q :: rest)) =
          (List.replicate (k + 1) 0, q :: rest) := by
        have h := splitRun_replicate_append (k + 1) q hq rest
        rwa [List.replicate_succ, List.cons_append] at h
      simp only [hsp]
      rw [dif_neg (List.cons_ne_nil q rest)]
      simp only [List.head_cons, List.tail_cons]
      rw [if_pos hq, List.replicate_succ]
  · intro g k
    cases k with
    | zero => rfl
    | succ k =>
      rw [List.replicate_succ]
      simp only [fillShortGaps]
      rw [if_neg (lt_irrefl 0)]
      have hsp : splitRun (0 :: List.replicate k (0 : ℚ)) =
          (List.replicate (k + 1) 0, []) := by
        have h := splitRun_replicate (k + 1)
        rwa [List.replicate_succ] at h
      simp only [hsp]
      rw [dif_pos trivial]
  · intro g p k q rest hp hq hk
    rw [fillShortGaps_pos p hp _ g, fillAuxAfter_gap g p k q rest hp hq, if_pos hk,
      fillShortGaps_pos q hq rest g]
  · intro g p k q rest hp hq hgk
    rw [fillShortGaps_pos p hp _ g, fillAuxAfter_gap g p k q rest hp hq,
      if_neg (by omega), fillShortGaps_pos q hq rest g]
  · intro g p k hp
    rw [fillShortGaps_pos p hp _ g, fillAuxAfter_trailing]
  · show fillShortGaps (5 :: 5 :: (List.replicate 3 0 ++ 8 :: [8])) 3 = _
    rw [fillShortGaps_pos 5 (by norm_num) _ 3, fillAuxAfter_pos 3 5 5 (by norm_num),
      fillAuxAfter_gap 3 5 3 8 [8] (by norm_num) (by norm_num), if_pos (by norm_num),
      fillAuxAfter_pos 3 8 8 (by norm_num) [], fillAuxAfter_nil]
    have hr : List.range 3 = [0, 1, 2] := rfl
    norm_num [lerpRun, hr]
  · show fillShortGaps (5 :: 5 :: (List.replicate 5 0 ++ 8 :: [8])) 3 = _
    rw [fillShortGaps_pos 5 (by norm_num) _ 3, fillAuxAfter_pos 3 5 5 (by norm_num),
      fillAuxAfter_gap 3 5 5 8 [8] (by norm_num) (by norm_num), if_neg (by norm_num),
      fillAuxAfter_pos 3 8 8 (by norm_num) [], fillAuxAfter_nil]
    rfl

/-- C3 witness: the short-gap case of fillShortGaps_spec applied to a
    concrete track — one zero between 1 and 2 is replaced by their
    midpoint. -/
theorem fillShortGaps_spec_witness : fillShortGaps [1, 0, 2] 20 = [1, 3 / 2, 2] := by
  have h := fillShortGaps_spec.2.2.1 20 1 1 2 [] (by norm_num) (by norm_num) (by norm_num)
  rw [show ([1, 0, 2] : List ℚ) = 1 :: (List.replicate 1 0 ++ 2 :: []) from rfl, h,
    fillShortGaps_pos 2 (by norm_num) [] 20, fillAuxAfter_nil]
  have hr : List.range 1 = [0] := rfl
  norm_num [lerpRun, hr]
